import Mathlib

/-!
Shallow embedding of `blockly-field-text-box` (src/index.js).

Strings are modelled as `List Char` (JS strings over code points).
`text.split(/\n/)` and `p.split(/\s/)` split at every single matching
character, keeping empty segments, and always return a nonempty list;
this is `splitChar` below, built from `splitAux` which returns the
first segment and the remaining segments separately.
-/

/-- The char class of the JS regex `\s` (ECMAScript WhiteSpace ∪ LineTerminator). -/
def isJsWhitespace (c : Char) : Bool :=
  c = ' ' || c = '\t' || c = '\n' || c.toNat = 11 || c.toNat = 12 || c = '\r' ||
  c.toNat = 0xa0 || c.toNat = 0x1680 ||
  (0x2000 ≤ c.toNat && c.toNat ≤ 0x200a) ||
  c.toNat = 0x2028 || c.toNat = 0x2029 || c.toNat = 0x202f ||
  c.toNat = 0x205f || c.toNat = 0x3000 || c.toNat = 0xfeff

/-- The char class of the JS regex `\n`. -/
def isNewlineChar (c : Char) : Bool := c = '\n'

/-- Helper for JS `String.prototype.split` with a single-character regex:
returns the first segment and the list of remaining segments. -/
def splitAux (p : Char → Bool) : List Char → List Char × List (List Char)
  | [] => ([], [])
  | c :: cs =>
    let r := splitAux p cs
    if p c then ([], r.1 :: r.2) else (c :: r.1, r.2)

/-- JS `s.split(re)` for a regex matching single characters in class `p`:
all segments, empty ones included; always nonempty. -/
def splitChar (p : Char → Bool) (s : List Char) : List (List Char) :=
  (splitAux p s).1 :: (splitAux p s).2

/-- The token loop of `splitOnRows` for one paragraph: `cur` is the current
last row (seeded with the paragraph's first token `w[0]`), `toks` the
remaining tokens `w[1..]`.  A token is appended to the last row when
`w[i].length + rows[rows.length-1].length + 1 < chars`, else pushed as a
new row (src/index.js lines 62-68). -/
def wrapLoop (chars : Nat) : List Char → List (List Char) → List (List Char)
  | cur, [] => [cur]
  | cur, t :: ts =>
    if t.length + cur.length + 1 < chars then
      wrapLoop chars (cur ++ ' ' :: t) ts
    else
      cur :: wrapLoop chars t ts

/-- Rows produced from a single paragraph: tokenize on `\s`, seed with the
first token, run the loop (src/index.js lines 58-68). -/
def wrapParagraph (chars : Nat) (p : List Char) : List (List Char) :=
  wrapLoop chars (splitAux isJsWhitespace p).1 (splitAux isJsWhitespace p).2

/-- `FieldTextBox.splitOnRows(text, chars)` (src/index.js lines 53-71):
split on `\n` into paragraphs, wrap each, concatenate all rows. -/
def splitOnRows (text : List Char) (chars : Nat) : List (List Char) :=
  ((splitChar isNewlineChar text).map (wrapParagraph chars)).flatten

/-- Join rows with newline characters, one row per line
(`rows.join('\n')` in JS). -/
def joinRows : List (List Char) → List Char
  | [] => []
  | [r] => r
  | r :: rs => r ++ '\n' :: joinRows rs

/-- A JS value as it may appear in the options record. Numbers are modelled
as integers (the configured values of interest are integral). -/
inductive JsVal where
  | undef
  | num (n : Int)
  | str (s : List Char)
  | jsBool (b : Bool)
deriving DecidableEq

/-- Numeric value of a decimal-digit run; `none` when the run is empty
(`parseInt` returns `NaN` then). -/
def digitsVal (cs : List Char) : Option Nat :=
  let ds := cs.takeWhile (fun c => c.isDigit)
  if ds.isEmpty then none
  else some (ds.foldl (fun a c => a * 10 + (c.toNat - 48)) 0)

/-- JS `parseInt(s, 10)` on a string: skip leading whitespace, optional
sign, then leading decimal digits; `none` models `NaN`. -/
def parseIntStr (s : List Char) : Option Int :=
  match s.dropWhile isJsWhitespace with
  | '-' :: rest => (digitsVal rest).map (fun n => -(n : Int))
  | '+' :: rest => (digitsVal rest).map (fun n => (n : Int))
  | other => (digitsVal other).map (fun n => (n : Int))

/-- JS `parseInt(v, 10)`: the argument is converted to a string first, so
`undefined` ("undefined"), booleans ("true"/"false") parse to `NaN`;
an integral number round-trips through its decimal representation. -/
def parseIntJs : JsVal → Option Int
  | .num n => some n
  | .str s => parseIntStr s
  | _ => none

def DEFAULT_LINE_CHARS : Nat := 40

/-- The state the constructor stores (src/index.js lines 27-33). -/
structure FieldTextBox where
  maxLineChars_ : Nat
  closeOnEnter_ : Bool
deriving DecidableEq

/-- The recognized option keys of the options record. -/
structure FieldOptions where
  maxLineChars : JsVal
  closeOnEnter : JsVal

/-- The constructor (src/index.js lines 27-33):
`Math.abs(parseInt(options.maxLineChars, 10)) || DEFAULT_LINE_CHARS`
(`NaN` and `0` are falsy, so both fall back to the default) and
`options.closeOnEnter === true`. -/
def fieldTextBoxNew (options : FieldOptions) : FieldTextBox :=
  { maxLineChars_ :=
      match (parseIntJs options.maxLineChars).map Int.natAbs with
      | none => DEFAULT_LINE_CHARS
      | some 0 => DEFAULT_LINE_CHARS
      | some n => n
    closeOnEnter_ := options.closeOnEnter = JsVal.jsBool true }

/-- `getMaxLineChars()` (src/index.js lines 295-297). -/
def getMaxLineChars (f : FieldTextBox) : Nat := f.maxLineChars_

/-- `Blockly.utils.KeyCodes.ENTER`. -/
def ENTER_KEYCODE : Nat := 13

/-- Which base handler `onHtmlInputKeyDown_` delegates to:
`FieldTextInput`'s handler commits the value and ends the edit session on
Enter; `FieldMultilineInput`'s default lets Enter insert a newline. -/
inductive KeyDownAction where
  | textInputCommit
  | multilineNewline
deriving DecidableEq

/-- `onHtmlInputKeyDown_` (src/index.js lines 305-311): delegate to the
single-line commit handler exactly when the key is Enter and
`closeOnEnter_` holds; otherwise to the multiline default. -/
def onHtmlInputKeyDown_ (f : FieldTextBox) (keyCode : Nat) : KeyDownAction :=
  if keyCode = ENTER_KEYCODE ∧ f.closeOnEnter_ then
    KeyDownAction.textInputCommit
  else
    KeyDownAction.multilineNewline

/-- The host measurement constants `updateSize_` reads. -/
structure SizeConsts where
  FIELD_TEXT_HEIGHT : Nat
  FIELD_BORDER_RECT_Y_PADDING : Nat
  FIELD_BORDER_RECT_X_PADDING : Nat

/-- The first loop of `updateSize_` (src/index.js lines 170-179) over the
rendered text nodes' measured widths: running maximum width and summed
height `FIELD_TEXT_HEIGHT + (i > 0 ? FIELD_BORDER_RECT_Y_PADDING : 0)`. -/
def measureLoop (k : SizeConsts) : Nat → Nat → Nat → List Nat → Nat × Nat
  | _, tw, th, [] => (tw, th)
  | i, tw, th, w :: ws =>
    measureLoop k (i + 1) (max tw w)
      (th + k.FIELD_TEXT_HEIGHT +
        (if 0 < i then k.FIELD_BORDER_RECT_Y_PADDING else 0)) ws

/-- The edit-mode loop of `updateSize_` (src/index.js lines 199-216): each
re-wrapped row is truncated to `maxDisplayLength` when longer, measured
with the fast width primitive, and the running maximum is kept. -/
def editLoop (fastWidth : List Char → Nat) (maxDisplayLength : Nat) :
    Nat → List (List Char) → Nat
  | tw, [] => tw
  | tw, row :: rows =>
    let row2 := if maxDisplayLength < row.length then
        row.take maxDisplayLength else row
    editLoop fastWidth maxDisplayLength (max tw (fastWidth row2)) rows

/-- `updateSize_` (src/index.js lines 166-227) as a pure function of the
host inputs: the measured widths of the rendered display nodes, the edit
flag, the raw field value, the configured budget, the host
`maxDisplayLength`, the fast measurement primitive, and whether a border
rectangle exists.  Returns the `(width, height)` written to `size_`. -/
def updateSize_ (k : SizeConsts) (nodeWidths : List Nat) (isBeingEdited : Bool)
    (value : List Char) (maxLineChars maxDisplayLength : Nat)
    (fastWidth : List Char → Nat) (hasBorderRect : Bool) : Nat × Nat :=
  let wh := measureLoop k 0 0 0 nodeWidths
  let tw := if isBeingEdited then
      editLoop fastWidth maxDisplayLength wh.1 (splitOnRows value maxLineChars)
    else wh.1
  if hasBorderRect then
    (tw + k.FIELD_BORDER_RECT_X_PADDING * 2,
     wh.2 + k.FIELD_BORDER_RECT_Y_PADDING * 2)
  else (tw, wh.2)

/-! ### Lemmas about `splitAux` / `splitChar` -/

theorem splitAux_free (p : Char → Bool) (s : List Char)
    (h : ∀ c ∈ s, p c = false) : splitAux p s = (s, []) := by
  induction s with
  | nil => rfl
  | cons c cs ih =>
    simp only [splitAux]
    rw [ih (fun d hd => h d (List.mem_cons_of_mem _ hd))]
    simp [h c (List.mem_cons_self c cs)]

theorem splitChar_free (p : Char → Bool) (s : List Char)
    (h : ∀ c ∈ s, p c = false) : splitChar p s = [s] := by
  simp [splitChar, splitAux_free p s h]

theorem splitAux_append_sep (p : Char → Bool) (sep : Char) (hsep : p sep = true)
    (a b : List Char) :
    splitAux p (a ++ sep :: b) =
      ((splitAux p a).1, (splitAux p a).2 ++ splitChar p b) := by
  induction a with
  | nil => simp [splitAux, splitChar, hsep]
  | cons c a ih =>
    simp only [List.cons_append, splitAux, ih]
    by_cases hc : p c <;> simp [hc, ih]

theorem splitChar_append_sep (p : Char → Bool) (sep : Char) (hsep : p sep = true)
    (a b : List Char) :
    splitChar p (a ++ sep :: b) = splitChar p a ++ splitChar p b := by
  simp [splitChar, splitAux_append_sep p sep hsep a b]

theorem splitChar_free_append (p : Char → Bool) (sep : Char) (hsep : p sep = true)
    (a b : List Char) (ha : ∀ c ∈ a, p c = false) :
    splitChar p (a ++ sep :: b) = a :: splitChar p b := by
  rw [splitChar_append_sep p sep hsep a b, splitChar_free p a ha]
  rfl

theorem splitAux_parts_free (p : Char → Bool) (s : List Char) :
    (∀ c ∈ (splitAux p s).1, p c = false) ∧
    (∀ r ∈ (splitAux p s).2, ∀ c ∈ r, p c = false) := by
  induction s with
  | nil => simp [splitAux]
  | cons c cs ih =>
    simp only [splitAux]
    by_cases hc : p c
    · simp only [hc, if_true]
      refine ⟨by simp, fun r hr => ?_⟩
      rcases List.mem_cons.mp hr with h | h
      · exact h ▸ ih.1
      · exact ih.2 r h
    · simp only [hc, if_false]
      refine ⟨fun d hd => ?_, ih.2⟩
      rcases List.mem_cons.mp hd with h | h
      · simpa [h] using hc
      · exact ih.1 d h

theorem mem_splitChar_free (p : Char → Bool) (s : List Char) (r : List Char)
    (hr : r ∈ splitChar p s) : ∀ c ∈ r, p c = false := by
  rcases List.mem_cons.mp hr with h | h
  · exact h ▸ (splitAux_parts_free p s).1
  · exact (splitAux_parts_free p s).2 r h

theorem splitChar_joinRows (rs : List (List Char)) (hne : rs ≠ [])
    (hfree : ∀ r ∈ rs, ∀ c ∈ r, isNewlineChar c = false) :
    splitChar isNewlineChar (joinRows rs) = rs := by
  induction rs with
  | nil => exact absurd rfl hne
  | cons r rs ih =>
    cases rs with
    | nil =>
      simp only [joinRows]
      exact splitChar_free _ r (hfree r (List.mem_cons_self r []))
    | cons r2 rs2 =>
      have hstep : joinRows (r :: r2 :: rs2) = r ++ '\n' :: joinRows (r2 :: rs2) := rfl
      rw [hstep, splitChar_free_append isNewlineChar '\n' (by decide) _ _
        (hfree r (List.mem_cons_self _ _)),
        ih (by simp) (fun q hq => hfree q (List.mem_cons_of_mem _ hq))]

/-! ### Lemmas about `wrapLoop` and `splitOnRows` -/

theorem ws_of_nl (c : Char) (h : isNewlineChar c = true) :
    isJsWhitespace c = true := by
  have hc : c = '\n' := of_decide_eq_true h
  subst hc
  decide

theorem nl_free_of_ws_free (c : Char) (h : isJsWhitespace c = false) :
    isNewlineChar c = false := by
  by_contra hc
  rw [ws_of_nl c (by simpa using hc)] at h
  simp at h

theorem wrapLoop_ne_nil (chars : Nat) (toks : List (List Char)) (cur : List Char) :
    wrapLoop chars cur toks ≠ [] := by
  induction toks generalizing cur with
  | nil => simp [wrapLoop]
  | cons t ts ih =>
    simp only [wrapLoop]
    split
    · exact ih _
    · simp

theorem wrapLoop_rows_free (q : Char → Bool) (hq : q ' ' = false) (chars : Nat)
    (toks : List (List Char)) (cur : List Char)
    (hcur : ∀ c ∈ cur, q c = false)
    (htoks : ∀ t ∈ toks, ∀ c ∈ t, q c = false) :
    ∀ r ∈ wrapLoop chars cur toks, ∀ c ∈ r, q c = false := by
  induction toks generalizing cur with
  | nil =>
    intro r hr
    simp only [wrapLoop, List.mem_singleton] at hr
    exact hr ▸ hcur
  | cons t ts ih =>
    intro r hr
    simp only [wrapLoop] at hr
    have htfree := htoks t (List.mem_cons_self t ts)
    have htail := fun u hu => htoks u (List.mem_cons_of_mem t hu)
    split at hr
    · refine ih (cur ++ ' ' :: t) (fun c hc => ?_) htail r hr
      rcases List.mem_append.mp hc with h | h
      · exact hcur c h
      · rcases List.mem_cons.mp h with h | h
        · exact h ▸ hq
        · exact htfree c h
    · rcases List.mem_cons.mp hr with h | h
      · exact h ▸ hcur
      · exact ih t htfree htail r h

theorem wrapLoop_flat_tokens (chars : Nat) (toks : List (List Char))
    (cur : List Char)
    (htoks : ∀ t ∈ toks, ∀ c ∈ t, isJsWhitespace c = false) :
    ((wrapLoop chars cur toks).map (splitChar isJsWhitespace)).flatten =
      splitChar isJsWhitespace cur ++ toks := by
  induction toks generalizing cur with
  | nil => simp [wrapLoop]
  | cons t ts ih =>
    have htfree := htoks t (List.mem_cons_self t ts)
    have htail := fun u hu => htoks u (List.mem_cons_of_mem t hu)
    simp only [wrapLoop]
    split
    · rw [ih (cur ++ ' ' :: t) htail,
        splitChar_append_sep isJsWhitespace ' ' (by decide) cur t,
        splitChar_free _ t htfree]
      simp
    · simp only [List.map_cons, List.flatten_cons]
      rw [ih t htail, splitChar_free _ t htfree]
      simp

/-- All tokens of the whole text, in order: tokenize every paragraph. -/
def allTokens (text : List Char) : List (List Char) :=
  ((splitChar isNewlineChar text).map (splitChar isJsWhitespace)).flatten

/-- The fit condition of the append branch, iterated along a token list
starting from row `cur`. -/
def allFit (chars : Nat) : List Char → List (List Char) → Bool
  | _, [] => true
  | cur, t :: ts =>
    decide (t.length + cur.length + 1 < chars) && allFit chars (cur ++ ' ' :: t) ts

/-- The single row obtained by appending every token to `cur`, each joined
by one literal space. -/
def glueRow : List Char → List (List Char) → List Char
  | cur, [] => cur
  | cur, t :: ts => glueRow (cur ++ ' ' :: t) ts

theorem wrapLoop_allFit (chars : Nat) (toks : List (List Char)) (cur : List Char)
    (h : allFit chars cur toks = true) :
    wrapLoop chars cur toks = [glueRow cur toks] := by
  induction toks generalizing cur with
  | nil => rfl
  | cons t ts ih =>
    simp only [allFit, Bool.and_eq_true, decide_eq_true_eq] at h
    simp only [wrapLoop, glueRow]
    rw [if_pos h.1]
    exact ih _ h.2

theorem wrapLoop_snoc (chars : Nat) (cs : List (List Char)) (c cur t : List Char)
    (h1 : wrapLoop chars c cs = [cur])
    (h2 : t.length + cur.length + 1 < chars) :
    wrapLoop chars c (cs ++ [t]) = [cur ++ ' ' :: t] := by
  induction cs generalizing c with
  | nil =>
    have hc : c = cur := by simpa [wrapLoop] using h1
    subst hc
    simp [wrapLoop, if_pos h2]
  | cons d ds ih =>
    rw [List.cons_append]
    simp only [wrapLoop] at h1 ⊢
    split at h1
    case isTrue hd =>
      rw [if_pos hd]
      exact ih _ h1
    case isFalse hd =>
      exfalso
      have h2 : wrapLoop chars d ds = [] := (List.cons.injEq _ _ _ _ ▸ congrArg id h1 : _) |>.2
      exact wrapLoop_ne_nil chars ds d h2

theorem wrapParagraph_free (chars : Nat) (t : List Char)
    (ht : ∀ c ∈ t, isJsWhitespace c = false) :
    wrapParagraph chars t = [t] := by
  unfold wrapParagraph
  rw [splitAux_free _ t ht]
  rfl

theorem wrapLoop_rewrap (chars : Nat) (toks : List (List Char)) (cur : List Char)
    (hcur : wrapParagraph chars cur = [cur])
    (htoks : ∀ t ∈ toks, ∀ c ∈ t, isJsWhitespace c = false) :
    ((wrapLoop chars cur toks).map (wrapParagraph chars)).flatten =
      wrapLoop chars cur toks := by
  induction toks generalizing cur with
  | nil => simp [wrapLoop, hcur]
  | cons t ts ih =>
    have htfree := htoks t (List.mem_cons_self t ts)
    have htail := fun u hu => htoks u (List.mem_cons_of_mem t hu)
    simp only [wrapLoop]
    split
    case isTrue hfit =>
      refine ih (cur ++ ' ' :: t) ?_ htail
      have hsa : splitAux isJsWhitespace (cur ++ ' ' :: t) =
          ((splitAux isJsWhitespace cur).1,
            (splitAux isJsWhitespace cur).2 ++ [t]) := by
        rw [splitAux_append_sep isJsWhitespace ' ' (by decide) cur t,
          splitChar_free _ t htfree]
      unfold wrapParagraph at hcur ⊢
      rw [hsa]
      exact wrapLoop_snoc chars _ _ cur t hcur hfit
    case isFalse hfit =>
      simp only [List.map_cons, List.flatten_cons]
      rw [hcur, ih t (wrapParagraph_free chars t htfree) htail]
      rfl

theorem wrapLoop_row_bound (chars : Nat) (toks : List (List Char))
    (cur : List Char) (T : List Char → Prop)
    (hcur : cur.length < chars ∨ T cur) (htoks : ∀ t ∈ toks, T t) :
    ∀ r ∈ wrapLoop chars cur toks, r.length < chars ∨ T r := by
  induction toks generalizing cur with
  | nil =>
    intro r hr
    simp only [wrapLoop, List.mem_singleton] at hr
    exact hr ▸ hcur
  | cons t ts ih =>
    intro r hr
    simp only [wrapLoop] at hr
    have htail := fun u hu => htoks u (List.mem_cons_of_mem t hu)
    split at hr
    case isTrue hfit =>
      refine ih (cur ++ ' ' :: t) (Or.inl ?_) htail r hr
      simp only [List.length_append, List.length_cons]
      omega
    case isFalse hfit =>
      rcases List.mem_cons.mp hr with h | h
      · exact h ▸ hcur
      · exact ih t (Or.inr (htoks t (List.mem_cons_self t ts))) htail r h

theorem splitOnRows_ne_nil (text : List Char) (chars : Nat) :
    splitOnRows text chars ≠ [] := by
  simp only [splitOnRows, splitChar, List.map_cons, List.flatten_cons]
  intro h
  rcases List.append_eq_nil.mp h with ⟨h1, _⟩
  exact wrapLoop_ne_nil chars _ _ h1

theorem splitOnRows_rows_nl_free (text : List Char) (chars : Nat) :
    ∀ r ∈ splitOnRows text chars, ∀ c ∈ r, isNewlineChar c = false := by
  intro r hr
  simp only [splitOnRows, List.mem_flatten, List.mem_map] at hr
  obtain ⟨_, ⟨p, _, rfl⟩, hrw⟩ := hr
  refine wrapLoop_rows_free isNewlineChar (by decide) chars _ _
    (fun c hc => ?_) (fun t ht c hc => ?_) r hrw
  · exact nl_free_of_ws_free c ((splitAux_parts_free isJsWhitespace p).1 c hc)
  · exact nl_free_of_ws_free c ((splitAux_parts_free isJsWhitespace p).2 t ht c hc)

theorem splitOnRows_tokens (text : List Char) (chars : Nat) :
    ((splitOnRows text chars).map (splitChar isJsWhitespace)).flatten =
      allTokens text := by
  have aux : ∀ ps : List (List Char),
      (((ps.map (wrapParagraph chars)).flatten).map (splitChar isJsWhitespace)).flatten
        = (ps.map (splitChar isJsWhitespace)).flatten := by
    intro ps
    induction ps with
    | nil => rfl
    | cons p ps ih =>
      simp only [List.map_cons, List.flatten_cons, List.map_append,
        List.flatten_append, ih]
      have hp : ((wrapParagraph chars p).map (splitChar isJsWhitespace)).flatten
          = splitChar isJsWhitespace p := by
        unfold wrapParagraph
        rw [wrapLoop_flat_tokens chars _ _ ((splitAux_parts_free isJsWhitespace p).2),
          splitChar_free _ _ ((splitAux_parts_free isJsWhitespace p).1)]
        rfl
      rw [hp]
  exact aux (splitChar isNewlineChar text)

theorem rewrap_paragraphs (chars : Nat) (ps : List (List Char)) :
    (((ps.map (wrapParagraph chars)).flatten).map (wrapParagraph chars)).flatten
      = (ps.map (wrapParagraph chars)).flatten := by
  induction ps with
  | nil => rfl
  | cons p ps ih =>
    simp only [List.map_cons, List.flatten_cons, List.map_append,
      List.flatten_append, ih]
    have hp : ((wrapParagraph chars p).map (wrapParagraph chars)).flatten
        = wrapParagraph chars p := by
      unfold wrapParagraph
      refine wrapLoop_rewrap chars _ _ ?_
        ((splitAux_parts_free isJsWhitespace p).2)
      exact wrapParagraph_free chars _ ((splitAux_parts_free isJsWhitespace p).1)
    rw [hp]

/-! ### Lemmas about `updateSize_` -/

theorem editLoop_ge (fastWidth : List Char → Nat) (maxDisplayLength : Nat)
    (rows : List (List Char)) (tw : Nat) :
    tw ≤ editLoop fastWidth maxDisplayLength tw rows := by
  induction rows generalizing tw with
  | nil => exact Nat.le_refl tw
  | cons row rows ih => exact Nat.le_trans (Nat.le_max_left _ _) (ih _)

theorem editLoop_eq_max (fastWidth : List Char → Nat) (maxDisplayLength : Nat)
    (rows : List (List Char)) (tw : Nat) :
    editLoop fastWidth maxDisplayLength tw rows =
      max tw (editLoop fastWidth maxDisplayLength 0 rows) := by
  induction rows generalizing tw with
  | nil => simp [editLoop]
  | cons row rows ih =>
    simp only [editLoop]
    rw [ih, ih (max 0 _)]
    omega

theorem measureLoop_height_pos (k : SizeConsts) (ws : List Nat)
    (i tw th : Nat) (hi : 0 < i) :
    (measureLoop k i tw th ws).2 =
      th + ws.length * (k.FIELD_TEXT_HEIGHT + k.FIELD_BORDER_RECT_Y_PADDING) := by
  induction ws generalizing i tw th with
  | nil => simp [measureLoop]
  | cons w ws ih =>
    simp only [measureLoop, if_pos hi]
    rw [ih (i + 1) _ _ (Nat.succ_pos i)]
    simp only [List.length_cons, Nat.succ_mul, Nat.mul_add]
    ring

theorem measureLoop_height (k : SizeConsts) (ws : List Nat) (tw th : Nat) :
    (measureLoop k 0 tw th ws).2 =
      th + ws.length * k.FIELD_TEXT_HEIGHT +
        (ws.length - 1) * k.FIELD_BORDER_RECT_Y_PADDING := by
  cases ws with
  | nil => simp [measureLoop]
  | cons w ws =>
    simp only [measureLoop, if_neg (Nat.lt_irrefl 0)]
    rw [measureLoop_height_pos k ws 1 _ _ (by decide)]
    simp only [List.length_cons, Nat.succ_mul, Nat.mul_add, Nat.add_sub_cancel]
    ring

/-! ### Claims -/

/-- Claim C1, counterexample: the claim says constructing with
`maxLineChars: -5` stores the default budget 40, like `"x"` or no option;
but the constructor takes `Math.abs(parseInt(-5, 10)) = 5`, which is
truthy, so the stored budget is 5, not 40. -/
theorem c1_maxLineChars_fallback_counterexample :
    getMaxLineChars (fieldTextBoxNew ⟨JsVal.num (-5), JsVal.undef⟩) = 5 ∧
    getMaxLineChars (fieldTextBoxNew ⟨JsVal.undef, JsVal.undef⟩) = 40 ∧
    getMaxLineChars (fieldTextBoxNew ⟨JsVal.num (-5), JsVal.undef⟩) ≠
      getMaxLineChars (fieldTextBoxNew ⟨JsVal.undef, JsVal.undef⟩) := by
  refine ⟨rfl, rfl, by decide⟩

/-- Claim C1, amended: constructing with `maxLineChars: "x"` or with no
`maxLineChars` stores the default 40, and every non-numeric value (one
that `parseInt` cannot parse) falls back to 40; but a negative numeric
value is mapped through `Math.abs`, so `-5` stores 5.  The invariant
`budget ≥ 1` still holds for every configured value. -/
theorem c1_maxLineChars_fallback_amended :
    getMaxLineChars (fieldTextBoxNew ⟨JsVal.str "x".toList, JsVal.undef⟩) = 40 ∧
    getMaxLineChars (fieldTextBoxNew ⟨JsVal.undef, JsVal.undef⟩) = 40 ∧
    getMaxLineChars (fieldTextBoxNew ⟨JsVal.num (-5), JsVal.undef⟩) = 5 ∧
    (∀ v co, parseIntJs v = none →
      getMaxLineChars (fieldTextBoxNew ⟨v, co⟩) = 40) ∧
    (∀ v co, 1 ≤ getMaxLineChars (fieldTextBoxNew ⟨v, co⟩)) := by
  refine ⟨rfl, rfl, rfl, ?_, ?_⟩
  · intro v co h
    simp [getMaxLineChars, fieldTextBoxNew, h, DEFAULT_LINE_CHARS]
  · intro v co
    cases hp : parseIntJs v with
    | none => simp [getMaxLineChars, fieldTextBoxNew, hp, DEFAULT_LINE_CHARS]
    | some n =>
      rcases hn : n.natAbs with _ | m
      · simp [getMaxLineChars, fieldTextBoxNew, hp, hn, DEFAULT_LINE_CHARS]
      · simp [getMaxLineChars, fieldTextBoxNew, hp, hn]

/-- Claim C1, witness for the amended theorem at the concrete value
`maxLineChars: false` (non-numeric, so the default 40 is stored). -/
theorem c1_maxLineChars_fallback_amended_witness :
    getMaxLineChars (fieldTextBoxNew ⟨JsVal.jsBool false, JsVal.undef⟩) = 40 :=
  c1_maxLineChars_fallback_amended.2.2.2.1 (JsVal.jsBool false) JsVal.undef rfl

/-- Claim C2, counterexample: the claim says a run of two spaces between
two tokens is re-joined as exactly one space, but `p.split(/\s/)` splits
at every single whitespace character, producing an empty token between
the two spaces, and re-joining appends one space per token - so
`splitOnRows("a  b", 40)` is `["a  b"]`, not `["a b"]`. -/
theorem c2_whitespace_collapse_counterexample :
    splitOnRows "a  b".toList 40 = ["a  b".toList] ∧
    splitOnRows "a  b".toList 40 ≠ ["a b".toList] := by
  refine ⟨rfl, by decide⟩

/-- Claim C2, amended: each paragraph is split at every single whitespace
character (a run of k whitespace characters yields k-1 empty tokens in
between), and each appended token contributes exactly one literal space.
Hence one single whitespace delimiter of any kind is normalized: for
whitespace-free tokens `a`, `b` and any single non-newline whitespace
delimiter, the result is the same as with a single space (`"a\tb"` wraps
to `["a b"]`), and when all tokens fit the paragraph becomes one row with
one space per token (so `"a  b"` keeps two spaces via its empty token). -/
theorem c2_whitespace_collapse_amended :
    (∀ sep (a b : List Char) (chars : Nat), isJsWhitespace sep = true →
      isNewlineChar sep = false →
      (∀ c ∈ a, isJsWhitespace c = false) →
      (∀ c ∈ b, isJsWhitespace c = false) →
      splitOnRows (a ++ sep :: b) chars = wrapLoop chars a [b]) ∧
    (∀ chars cur toks, allFit chars cur toks = true →
      wrapLoop chars cur toks = [glueRow cur toks]) ∧
    splitOnRows "a\tb".toList 40 = ["a b".toList] ∧
    splitOnRows "a  b".toList 40 = ["a  b".toList] := by
  refine ⟨?_, fun chars cur toks h => wrapLoop_allFit chars toks cur h, rfl, rfl⟩
  intro sep a b chars hsep hsepnl ha hb
  have hnl : ∀ c ∈ a ++ sep :: b, isNewlineChar c = false := by
    intro c hc
    rcases List.mem_append.mp hc with h | h
    · exact nl_free_of_ws_free c (ha c h)
    · rcases List.mem_cons.mp h with h | h
      · exact h ▸ hsepnl
      · exact nl_free_of_ws_free c (hb c h)
  show ((splitChar isNewlineChar (a ++ sep :: b)).map (wrapParagraph chars)).flatten
    = wrapLoop chars a [b]
  rw [splitChar_free _ _ hnl]
  simp only [List.map_cons, List.map_nil, List.flatten_cons, List.flatten_nil,
    List.append_nil]
  unfold wrapParagraph
  rw [splitAux_append_sep isJsWhitespace sep hsep a b, splitChar_free _ b hb,
    splitAux_free _ a ha]
  rfl

/-- Claim C2, witness for the amended theorem: the general delimiter
normalization applied at `sep := tab`, `a := "a"`, `b := "b"`,
budget 40. -/
theorem c2_whitespace_collapse_amended_witness :
    splitOnRows "a\tb".toList 40 = wrapLoop 40 "a".toList ["b".toList] :=
  c2_whitespace_collapse_amended.1 '\t' "a".toList "b".toList 40
    (by decide) (by decide) (by decide) (by decide)

/-- Claim C3, counterexample: the claim says every row is at most
`budget - 1` characters long for every text and budget, but a paragraph's
single long token is seeded whole: `splitOnRows("aaaaaa", 3)` returns the
six-character row `"aaaaaa"`. -/
theorem c3_row_length_bound_counterexample :
    splitOnRows "aaaaaa".toList 3 = ["aaaaaa".toList] ∧
    ¬ ("aaaaaa".toList.length ≤ 3 - 1) := by
  refine ⟨rfl, by decide⟩

/-- Claim C3, amended: every row of `splitOnRows text budget` either has
length strictly less than the budget (so at most `budget - 1`) or is one
whole token of the input placed on a row by itself; only seeded single
tokens may exceed the budget. -/
theorem c3_row_length_bound_amended :
    ∀ (text : List Char) (chars : Nat), ∀ r ∈ splitOnRows text chars,
      r.length < chars ∨ r ∈ allTokens text := by
  intro text chars r hr
  simp only [splitOnRows, List.mem_flatten, List.mem_map] at hr
  obtain ⟨_, ⟨p, hp, rfl⟩, hrw⟩ := hr
  have hmem : ∀ t ∈ splitChar isJsWhitespace p, t ∈ allTokens text := by
    intro t ht
    simp only [allTokens, List.mem_flatten, List.mem_map]
    exact ⟨splitChar isJsWhitespace p, ⟨p, hp, rfl⟩, ht⟩
  refine wrapLoop_row_bound chars _ _ (fun t => t ∈ allTokens text)
    (Or.inr (hmem _ (List.mem_cons_self _ _))) (fun t ht => ?_) r hrw
  exact hmem t (List.mem_cons_of_mem _ ht)

/-- Claim C3, witness for the amended theorem at the oversized-token
input: the row `"aaaaaa"` of `splitOnRows("aaaaaa", 3)` is a whole input
token. -/
theorem c3_row_length_bound_amended_witness :
    "aaaaaa".toList.length < 3 ∨ "aaaaaa".toList ∈ allTokens "aaaaaa".toList :=
  c3_row_length_bound_amended "aaaaaa".toList 3 "aaaaaa".toList (by decide)

/-- Claim C4: a subsequent token is appended to the current last row
exactly when `tokenLength + currentRowLength + 1 < budget`, else it
starts a new row; in particular for two whitespace-free tokens the result
is one row or two by that strict comparison, `splitOnRows("aa bb", 5)` is
`["aa", "bb"]` (2+1+2=5 is not < 5) and `splitOnRows("aa bb", 6)` is
`["aa bb"]` (5 < 6). -/
theorem c4_append_tie_break :
    (∀ (a b : List Char) (chars : Nat),
      (∀ c ∈ a, isJsWhitespace c = false) →
      (∀ c ∈ b, isJsWhitespace c = false) →
      splitOnRows (a ++ ' ' :: b) chars =
        if b.length + a.length + 1 < chars then [a ++ ' ' :: b] else [a, b]) ∧
    splitOnRows "aa bb".toList 5 = ["aa".toList, "bb".toList] ∧
    splitOnRows "aa bb".toList 6 = ["aa bb".toList] := by
  refine ⟨?_, rfl, rfl⟩
  intro a b chars ha hb
  have hnl : ∀ c ∈ a ++ ' ' :: b, isNewlineChar c = false := by
    intro c hc
    rcases List.mem_append.mp hc with h | h
    · exact nl_free_of_ws_free c (ha c h)
    · rcases List.mem_cons.mp h with h | h
      · exact h ▸ (by decide)
      · exact nl_free_of_ws_free c (hb c h)
  show ((splitChar isNewlineChar (a ++ ' ' :: b)).map (wrapParagraph chars)).flatten
    = _
  rw [splitChar_free _ _ hnl]
  simp only [List.map_cons, List.map_nil, List.flatten_cons, List.flatten_nil,
    List.append_nil]
  unfold wrapParagraph
  rw [splitAux_append_sep isJsWhitespace ' ' (by decide) a b,
    splitChar_free _ b hb, splitAux_free _ a ha]
  show wrapLoop chars a [b] = _
  simp only [wrapLoop]

/-- Claim C4, witness: the general two-token characterization applied at
`a := "aa"`, `b := "bb"`, budget 5. -/
theorem c4_append_tie_break_witness :
    splitOnRows "aa bb".toList 5 =
      (if ("bb".toList.length + "aa".toList.length + 1 < 5 : Prop) then
        ["aa bb".toList] else ["aa".toList, "bb".toList]) :=
  c4_append_tie_break.1 "aa".toList "bb".toList 5 (by decide) (by decide)

/-- Claim C5: for the same host metrics, display-node widths, value and
budget, the total width computed by `updateSize_` with an active edit
session is at least the display-mode width, and the edit-mode width is
exactly the maximum over the display-row widths and the fast-measured
widths of the re-wrapped, `maxDisplayLength`-truncated value rows (plus
border padding when a border rectangle is present). -/
theorem c5_edit_width_monotone :
    ∀ (k : SizeConsts) (nodeWidths : List Nat) (value : List Char)
      (maxLineChars maxDisplayLength : Nat) (fastWidth : List Char → Nat)
      (hasBorderRect : Bool),
      (updateSize_ k nodeWidths false value maxLineChars maxDisplayLength
          fastWidth hasBorderRect).1 ≤
        (updateSize_ k nodeWidths true value maxLineChars maxDisplayLength
          fastWidth hasBorderRect).1 ∧
      (updateSize_ k nodeWidths true value maxLineChars maxDisplayLength
          fastWidth hasBorderRect).1 =
        max (measureLoop k 0 0 0 nodeWidths).1
            (editLoop fastWidth maxDisplayLength 0
              (splitOnRows value maxLineChars)) +
          (if hasBorderRect then k.FIELD_BORDER_RECT_X_PADDING * 2 else 0) := by
  intro k nw v mlc mdl fw hb
  have hge := editLoop_ge fw mdl (splitOnRows v mlc) (measureLoop k 0 0 0 nw).1
  have heq := editLoop_eq_max fw mdl (splitOnRows v mlc) (measureLoop k 0 0 0 nw).1
  have h2 : ∀ tw, tw ≤ tw + k.FIELD_BORDER_RECT_X_PADDING * 2 := fun tw => Nat.le_add_right _ _
  cases hb
  · refine ⟨?_, ?_⟩
    · simpa [updateSize_] using hge
    · simpa [updateSize_] using heq
  · refine ⟨?_, ?_⟩
    · simp only [updateSize_]
      simp only [Bool.false_eq_true, if_false, if_true]
      exact Nat.add_le_add_right hge _
    · simp only [updateSize_]
      simp only [Bool.false_eq_true, if_false, if_true]
      rw [heq]

/-- Claim C6: `splitOnRows` never breaks a token: re-tokenizing the output
rows recovers exactly the token sequence of the input, in order, and a
single whitespace-free token is always placed whole as its own row even
when its length reaches or exceeds the budget. -/
theorem c6_no_mid_token_break :
    (∀ (text : List Char) (chars : Nat),
      ((splitOnRows text chars).map (splitChar isJsWhitespace)).flatten =
        allTokens text) ∧
    (∀ (t : List Char) (chars : Nat),
      (∀ c ∈ t, isJsWhitespace c = false) → splitOnRows t chars = [t]) := by
  refine ⟨splitOnRows_tokens, ?_⟩
  intro t chars ht
  have hnl : ∀ c ∈ t, isNewlineChar c = false :=
    fun c hc => nl_free_of_ws_free c (ht c hc)
  show ((splitChar isNewlineChar t).map (wrapParagraph chars)).flatten = [t]
  rw [splitChar_free _ _ hnl]
  simp only [List.map_cons, List.map_nil, List.flatten_cons, List.flatten_nil,
    List.append_nil]
  exact wrapParagraph_free chars t ht

/-- Claim C6, witness: the single-token clause applied at the six-character
token `"zzzzzz"` with budget 2: it becomes one whole row. -/
theorem c6_no_mid_token_break_witness :
    splitOnRows "zzzzzz".toList 2 = ["zzzzzz".toList] :=
  c6_no_mid_token_break.2 "zzzzzz".toList 2 (by decide)

/-- Claim C7: explicit line breaks and empty paragraphs are preserved:
`splitOnRows("a\n\nb", 40)` is `["a", "", "b"]`, and for every budget,
`splitOnRows("", N)` is `[""]`. -/
theorem c7_newline_preservation :
    splitOnRows "a\n\nb".toList 40 = ["a".toList, [], "b".toList] ∧
    ∀ chars : Nat, splitOnRows [] chars = [[]] :=
  ⟨rfl, fun _ => rfl⟩

/-- Claim C8: wrapping is idempotent: joining the rows with newlines, one
row per line, and re-wrapping at the same budget reproduces the same row
sequence. -/
theorem c8_idempotent_rewrap :
    ∀ (text : List Char) (chars : Nat),
      splitOnRows (joinRows (splitOnRows text chars)) chars =
        splitOnRows text chars := by
  intro text chars
  have h1 : splitChar isNewlineChar (joinRows (splitOnRows text chars)) =
      splitOnRows text chars :=
    splitChar_joinRows _ (splitOnRows_ne_nil text chars)
      (splitOnRows_rows_nl_free text chars)
  show ((splitChar isNewlineChar (joinRows (splitOnRows text chars))).map
    (wrapParagraph chars)).flatten = _
  rw [h1]
  exact rewrap_paragraphs chars (splitChar isNewlineChar text)

/-- Claim C9: with border absent the computed height is
`n * FIELD_TEXT_HEIGHT + (n - 1) * FIELD_BORDER_RECT_Y_PADDING` for `n`
rendered rows; a border rectangle adds `2 * FIELD_BORDER_RECT_Y_PADDING`
to the height and `2 * FIELD_BORDER_RECT_X_PADDING` to the width. -/
theorem c9_height_formula :
    ∀ (k : SizeConsts) (nodeWidths : List Nat) (isBeingEdited : Bool)
      (value : List Char) (maxLineChars maxDisplayLength : Nat)
      (fastWidth : List Char → Nat),
      (updateSize_ k nodeWidths isBeingEdited value maxLineChars
          maxDisplayLength fastWidth false).2 =
        nodeWidths.length * k.FIELD_TEXT_HEIGHT +
          (nodeWidths.length - 1) * k.FIELD_BORDER_RECT_Y_PADDING ∧
      (updateSize_ k nodeWidths isBeingEdited value maxLineChars
          maxDisplayLength fastWidth true).2 =
        nodeWidths.length * k.FIELD_TEXT_HEIGHT +
          (nodeWidths.length - 1) * k.FIELD_BORDER_RECT_Y_PADDING +
          k.FIELD_BORDER_RECT_Y_PADDING * 2 ∧
      (updateSize_ k nodeWidths isBeingEdited value maxLineChars
          maxDisplayLength fastWidth true).1 =
        (updateSize_ k nodeWidths isBeingEdited value maxLineChars
          maxDisplayLength fastWidth false).1 +
          k.FIELD_BORDER_RECT_X_PADDING * 2 := by
  intro k nw Ed v mlc mdl fw
  have hh := measureLoop_height k nw 0 0
  refine ⟨?_, ?_, ?_⟩ <;> simp [updateSize_, hh]

/-- Claim C10: the commit-on-Enter flag is stored as true exactly when the
`closeOnEnter` option is the boolean `true`; for every other value
(`1`, the string `"true"`, absent) the flag is false and the Enter key
falls through to the multiline default, which inserts a newline. -/
theorem c10_closeOnEnter_strict_true :
    (∀ (mlc v : JsVal),
      ((fieldTextBoxNew ⟨mlc, v⟩).closeOnEnter_ = true ↔
        v = JsVal.jsBool true)) ∧
    (∀ (mlc v : JsVal),
      (onHtmlInputKeyDown_ (fieldTextBoxNew ⟨mlc, v⟩) ENTER_KEYCODE =
          KeyDownAction.textInputCommit ↔ v = JsVal.jsBool true)) ∧
    (fieldTextBoxNew ⟨JsVal.undef, JsVal.num 1⟩).closeOnEnter_ = false ∧
    (fieldTextBoxNew ⟨JsVal.undef, JsVal.str "true".toList⟩).closeOnEnter_ =
      false ∧
    (fieldTextBoxNew ⟨JsVal.undef, JsVal.undef⟩).closeOnEnter_ = false ∧
    onHtmlInputKeyDown_ (fieldTextBoxNew ⟨JsVal.undef, JsVal.num 1⟩)
      ENTER_KEYCODE = KeyDownAction.multilineNewline := by
  refine ⟨?_, ?_, by decide, by decide, by decide, by decide⟩
  · intro mlc v
    simp [fieldTextBoxNew]
  · intro mlc v
    by_cases hv : v = JsVal.jsBool true
    · simp [onHtmlInputKeyDown_, fieldTextBoxNew, ENTER_KEYCODE, hv]
    · simp [onHtmlInputKeyDown_, fieldTextBoxNew, ENTER_KEYCODE, hv]
